import Mathlib

/-!
# Verification of the memory-mapped pretraining data pipeline

Shallow embedding of `scripts/pretrain.py`: the per-line chunking loop of
`MMapTextDataset.raw_text_to_mmap` (the Chunk Builder), the per-line
train/validation bucket assignment, the serialization step
`_tokenized_text_to_mmap`, and the `MMapTextDataset` reader
(`__init__` / `__getitem__`).

Machine integers are modelled as `Nat` with explicit `% 65536` where the
uint16 storage matters; the widening in `__getitem__` (uint16 → int32 →
int64) is modelled as `Nat → Int` coercion.  Random draws from
`random.random()` are modelled as an explicit stream `draws : ℕ → ℚ`
consumed in program order; `random.shuffle` is modelled as an explicit
permutation-producing function parameter.
-/

/-- A token as seen by the chunking loop: the tokenizer's three special
tokens (`tokenizer.bos_token`, `tokenizer.eos_token`, `tokenizer.pad_token`)
plus opaque content tokens produced by `tokenizer.tokenize`. -/
inductive Tok where
  | bos : Tok
  | eos : Tok
  | pad : Tok
  | word : ℕ → Tok
deriving DecidableEq

/-- `true` exactly on the three reserved marker tokens. -/
def Tok.isSpecial : Tok → Bool
  | .bos => true
  | .eos => true
  | .pad => true
  | .word _ => false

/-- The `for token in tokens` loop of `raw_text_to_mmap` (pretrain.py
lines 68-73), parameterised by the running chunk `cur` (Python's
`current_chunk`).  Returns the chunks emitted inside the loop together with
the final value of `current_chunk`:

    for token in tokens:
        if len(current_chunk) == args.seqlen - 1:  # chunk is full
            current_chunk.append(tokenizer.eos_token)
            chunks_list.append(current_chunk)
            current_chunk = [tokenizer.bos_token]
        current_chunk.append(token)
-/
def buildLoop (S : ℕ) : List Tok → List Tok → List (List Tok) × List Tok
  | cur, [] => ([], cur)
  | cur, t :: ts =>
    if cur.length = S - 1 then
      let r := buildLoop S (Tok.bos :: [t]) ts
      ((cur ++ [Tok.eos]) :: r.1, r.2)
    else
      buildLoop S (cur ++ [t]) ts

/-- The post-loop finalization of `raw_text_to_mmap` (pretrain.py lines
74-75): right-pad `current_chunk` to `seqlen` with the pad token, then
overwrite index `seqlen - 1` with the end marker:

    current_chunk.extend([tokenizer.pad_token] * (args.seqlen - len(current_chunk)))
    current_chunk[args.seqlen - 1] = tokenizer.eos_token
-/
def finalize (S : ℕ) (cur : List Tok) : List Tok :=
  (cur ++ List.replicate (S - cur.length) Tok.pad).set (S - 1) Tok.eos

/-- The Chunk Builder: all chunks appended to `chunks_list` for one
document (pretrain.py lines 67-76) — the chunks emitted inside the token
loop followed by the padded final chunk. -/
def chunkBuilder (S : ℕ) (toks : List Tok) : List (List Tok) :=
  let r := buildLoop S (Tok.bos :: []) toks
  r.1 ++ [finalize S r.2]

example : chunkBuilder 8 [Tok.word 0, Tok.word 1] =
    [[Tok.bos, Tok.word 0, Tok.word 1, Tok.pad, Tok.pad, Tok.pad, Tok.pad, Tok.eos]] := by
  decide

example : chunkBuilder 3 [Tok.word 0, Tok.word 1] =
    [[Tok.bos, Tok.word 0, Tok.eos], [Tok.bos, Tok.word 1, Tok.eos]] := by
  decide

example : chunkBuilder 4 [] = [[Tok.bos, Tok.pad, Tok.pad, Tok.eos]] := by
  decide

example : (chunkBuilder 8 [Tok.word 0, Tok.word 1, Tok.word 2,
    Tok.word 3, Tok.word 4, Tok.word 5]).length = 1 := by
  decide

/-- One input line, as it reaches the line loop of `raw_text_to_mmap`:
whether `line.strip() == ''` (in which case the line is dropped before any
random draw), and its tokenization `tokenizer.tokenize(line)` otherwise. -/
structure Line where
  isEmpty : Bool
  tokens : List Tok
deriving DecidableEq

/-- The line loop of `raw_text_to_mmap` (pretrain.py lines 58-76): skip
empty lines, pick the destination bucket with one `random.random()` draw
per non-empty line (`train_chunks if random.random() > args.train_dev_split
else val_chunks`), then append every chunk the Chunk Builder produces for
that line to the chosen bucket.  `draws n` is the value of the `n`-th call
to `random.random()`; `n` counts the draws already consumed.  Returns the
(train, validation) buckets in emission order. -/
def ingestFrom (ratio : ℚ) (S : ℕ) (draws : ℕ → ℚ) :
    List Line → ℕ → List (List Tok) × List (List Tok)
  | [], _ => ([], [])
  | l :: ls, n =>
    if l.isEmpty then
      ingestFrom ratio S draws ls n
    else if draws n > ratio then
      (chunkBuilder S l.tokens ++ (ingestFrom ratio S draws ls (n + 1)).1,
       (ingestFrom ratio S draws ls (n + 1)).2)
    else
      ((ingestFrom ratio S draws ls (n + 1)).1,
       chunkBuilder S l.tokens ++ (ingestFrom ratio S draws ls (n + 1)).2)

/-- The serialization step `_tokenized_text_to_mmap` (pretrain.py lines
78-89): shuffle the bucket, convert every chunk's tokens to ids
(`idOf` models `tokenizer.convert_tokens_to_ids`), assert every row has
exactly `seqlen` ids, and write the rows densely as uint16 (values stored
modulo 2^16).  `shuffle` models the in-place `random.shuffle`; the assert
failure is `none`.  The result is the flat element sequence of the written
binary file. -/
def tokenizedTextToMmap (S : ℕ) (idOf : Tok → ℕ)
    (shuffle : List (List Tok) → List (List Tok))
    (chunksList : List (List Tok)) : Option (List ℕ) :=
  let shuffled := shuffle chunksList
  if shuffled.all (fun c => (c.map idOf).length = S) then
    some ((shuffled.map (fun c => (c.map idOf).map (fun v => v % 65536))).flatten)
  else
    none

/-- What `raw_text_to_mmap` does to the cache: either the early return when
`{input_dir}/cache/` already exists (no file created or touched), or the
flat contents written to `train.bin` and `val.bin`. -/
inductive IngestOutcome where
  | skipped : IngestOutcome
  | written : List ℕ → List ℕ → IngestOutcome
deriving DecidableEq

/-- `MMapTextDataset.raw_text_to_mmap` (pretrain.py lines 43-92) end to
end: the `assert len(tokenizer) < 65535` guard runs first, then the
`cache/` existence check short-circuits, then the line loop fills the two
buckets and each bucket is serialized.  `lines` is the concatenation, in
file order, of the lines of all `*.txt` files.  Errors model uncaught
`AssertionError`s. -/
def rawTextToMmap (vocabSize : ℕ) (cacheExists : Bool) (ratio : ℚ) (S : ℕ)
    (draws : ℕ → ℚ) (idOf : Tok → ℕ)
    (shuffleT shuffleV : List (List Tok) → List (List Tok))
    (lines : List Line) : Except String IngestOutcome :=
  if vocabSize < 65535 then
    if cacheExists then
      Except.ok IngestOutcome.skipped
    else
      let buckets := ingestFrom ratio S draws lines 0
      match tokenizedTextToMmap S idOf shuffleT buckets.1,
            tokenizedTextToMmap S idOf shuffleV buckets.2 with
      | some t, some v => Except.ok (IngestOutcome.written t v)
      | _, _ => Except.error "assert len(token_ids) == args.seqlen"
  else
    Except.error "assert len(tokenizer) < 65535"

/-- `MMapTextDataset.__init__` (pretrain.py line 25): the dataset length is
the binary file's total element count integer-divided by `chunk_size`. -/
def numInstances (data : List ℕ) (chunkSize : ℕ) : ℕ :=
  data.length / chunkSize

/-- `MMapTextDataset.__getitem__` (pretrain.py lines 37-41): row `i` of the
memmap reshaped to `(num_instances, chunk_size)`, widened from uint16 to a
signed integer type (`astype(np.int32)` then `torch.long`). -/
def getItem (data : List ℕ) (chunkSize i : ℕ) : List ℤ :=
  ((data.drop (i * chunkSize)).take chunkSize).map (fun (v : ℕ) => (v : ℤ))

example :
    rawTextToMmap 100 false 0 8 (fun _ => 1)
      (fun t => match t with | .bos => 0 | .pad => 1 | .eos => 2 | .word n => 5 + n)
      id id [⟨false, [Tok.word 0, Tok.word 1]⟩, ⟨true, []⟩] =
    Except.ok (IngestOutcome.written [0, 5, 6, 1, 1, 1, 1, 2] []) := by
  rfl

/-- Loop invariant of the token loop: if the running chunk is nonempty, has
at most `S - 1` elements and starts with the begin marker, then every chunk
emitted inside the loop has length `S`, starts with the begin marker and
ends with the end marker, and the final running chunk again satisfies the
invariant. -/
theorem buildLoop_shape (S : ℕ) (hS : 3 ≤ S) :
    ∀ (toks cur : List Tok), 1 ≤ cur.length → cur.length ≤ S - 1 →
      cur[0]? = some Tok.bos →
      (∀ ch ∈ (buildLoop S cur toks).1,
          ch.length = S ∧ ch[0]? = some Tok.bos ∧ ch[S - 1]? = some Tok.eos) ∧
      1 ≤ (buildLoop S cur toks).2.length ∧
      (buildLoop S cur toks).2.length ≤ S - 1 ∧
      (buildLoop S cur toks).2[0]? = some Tok.bos := by
  intro toks
  induction toks with
  | nil =>
    intro cur h1 h2 h0
    refine ⟨by simp [buildLoop], ?_, ?_, ?_⟩ <;> simpa [buildLoop] using (by assumption)
  | cons t ts ih =>
    intro cur h1 h2 h0
    by_cases hfull : cur.length = S - 1
    · have hr := ih (Tok.bos :: [t]) (by simp) (by simp; omega) (by simp)
      rw [buildLoop, if_pos hfull]
      refine ⟨?_, hr.2.1, hr.2.2.1, hr.2.2.2⟩
      intro ch hc
      simp only [List.mem_cons] at hc
      rcases hc with rfl | hc
      · refine ⟨by simp [hfull]; omega, ?_, ?_⟩
        · rw [List.getElem?_append_left (by omega), h0]
        · rw [List.getElem?_append_right (le_of_eq hfull)]
          simp [hfull]
      · exact hr.1 ch hc
    · have hlt : cur.length < S - 1 := lt_of_le_of_ne h2 hfull
      have hr := ih (cur ++ [t]) (by simp) (by simp; omega)
        (by rw [List.getElem?_append_left (by omega)]; exact h0)
      rw [buildLoop, if_neg hfull]
      exact hr

/-- The finalization step: padding to `S` and overwriting the last slot
with the end marker yields a chunk of length `S` that starts with the
begin marker and ends with the end marker. -/
theorem finalize_shape (S : ℕ) (hS : 3 ≤ S) (cur : List Tok)
    (h1 : 1 ≤ cur.length) (h2 : cur.length ≤ S - 1)
    (h0 : cur[0]? = some Tok.bos) :
    (finalize S cur).length = S ∧ (finalize S cur)[0]? = some Tok.bos ∧
    (finalize S cur)[S - 1]? = some Tok.eos := by
  have hlen : (cur ++ List.replicate (S - cur.length) Tok.pad).length = S := by
    simp; omega
  refine ⟨by simp [finalize, hlen], ?_, ?_⟩
  · rw [finalize, List.getElem?_set_ne (by omega),
      List.getElem?_append_left (by omega)]
    exact h0
  · rw [finalize, List.getElem?_set_self (by omega)]

/-- C1: for every document token sequence and every `seqlen` `S ≥ 3`, every
chunk emitted by the per-line chunking loop of `raw_text_to_mmap` has
length exactly `S`, its first element is the begin-of-sequence marker, and
its last element (index `S - 1`) is the end-of-sequence marker. -/
theorem chunkBuilder_shape (S : ℕ) (toks : List Tok) (hS : 3 ≤ S) :
    ∀ ch ∈ chunkBuilder S toks,
      ch.length = S ∧ ch[0]? = some Tok.bos ∧ ch[S - 1]? = some Tok.eos := by
  intro ch hc
  have hb := buildLoop_shape S hS toks (Tok.bos :: []) (by simp) (by simp; omega)
    (by simp)
  rw [chunkBuilder] at hc
  simp only [List.mem_append, List.mem_singleton] at hc
  rcases hc with hc | rfl
  · exact hb.1 ch hc
  · exact finalize_shape S hS _ hb.2.1 hb.2.2.1 hb.2.2.2

/-- Witness for C1 at `S = 3`, document `[word 0]`. -/
theorem chunkBuilder_shape_witness :
    3 ≤ 3 ∧ ∀ ch ∈ chunkBuilder 3 [Tok.word 0],
      ch.length = 3 ∧ ch[0]? = some Tok.bos ∧ ch[3 - 1]? = some Tok.eos :=
  ⟨by decide, chunkBuilder_shape 3 [Tok.word 0] (by decide)⟩

/-- Unfolding of `buildLoop` on the empty token list. -/
theorem buildLoop_nil (S : ℕ) (cur : List Tok) :
    buildLoop S cur [] = ([], cur) := rfl

/-- Unfolding of `buildLoop` when the running chunk is full. -/
theorem buildLoop_cons_full (S : ℕ) (cur : List Tok) (t : Tok) (ts : List Tok)
    (h : cur.length = S - 1) :
    buildLoop S cur (t :: ts)
      = ((cur ++ [Tok.eos]) :: (buildLoop S (Tok.bos :: [t]) ts).1,
         (buildLoop S (Tok.bos :: [t]) ts).2) := by
  rw [buildLoop, if_pos h]

/-- Unfolding of `buildLoop` when the running chunk is not yet full. -/
theorem buildLoop_cons_notfull (S : ℕ) (cur : List Tok) (t : Tok)
    (ts : List Tok) (h : ¬ cur.length = S - 1) :
    buildLoop S cur (t :: ts) = buildLoop S (cur ++ [t]) ts := by
  rw [buildLoop, if_neg h]

/-- Unfolding of `chunkBuilder`. -/
theorem chunkBuilder_eq (S : ℕ) (toks : List Tok) :
    chunkBuilder S toks
      = (buildLoop S (Tok.bos :: []) toks).1
        ++ [finalize S (buildLoop S (Tok.bos :: []) toks).2] := rfl

/-- Counting invariant of the token loop: each emitted chunk absorbs
`S - 2` content tokens, so the final running chunk's length plus
`(S - 2) ·` (number of emitted chunks) accounts for the starting chunk and
every consumed token; moreover once at least one token has been consumed
the running chunk holds the begin marker plus at least one token. -/
theorem buildLoop_count (S : ℕ) (hS : 3 ≤ S) :
    ∀ (toks cur : List Tok), 1 ≤ cur.length →
      (buildLoop S cur toks).2.length
          + (S - 2) * (buildLoop S cur toks).1.length
        = cur.length + toks.length ∧
      (toks ≠ [] → 2 ≤ (buildLoop S cur toks).2.length) := by
  intro toks
  induction toks with
  | nil =>
    intro cur h1
    simp [buildLoop_nil]
  | cons t ts ih =>
    intro cur h1
    by_cases hfull : cur.length = S - 1
    · have ihh := ih (Tok.bos :: [t]) (by simp)
      rw [buildLoop_cons_full S cur t ts hfull]
      rcases hr : buildLoop S (Tok.bos :: [t]) ts with ⟨cs, fin⟩
      rw [hr] at ihh
      constructor
      · have hid := ihh.1
        simp only [List.length_cons, List.length_nil] at hid ⊢
        rw [Nat.mul_add, Nat.mul_one]
        generalize (S - 2) * cs.length = A at hid ⊢
        omega
      · intro _
        cases ts with
        | nil =>
          rw [buildLoop_nil] at hr
          simp_all
        | cons u us => exact ihh.2 (by simp)
    · have ihh := ih (cur ++ [t]) (by simp)
      rw [buildLoop_cons_notfull S cur t ts hfull]
      rcases hr : buildLoop S (cur ++ [t]) ts with ⟨cs, fin⟩
      rw [hr] at ihh
      constructor
      · have hid := ihh.1
        simp only [List.length_append, List.length_cons, List.length_nil]
          at hid ⊢
        generalize (S - 2) * cs.length = A at hid ⊢
        omega
      · intro _
        cases ts with
        | nil =>
          rw [buildLoop_nil] at hr
          have : fin = cur ++ [t] := by simp_all
          simp [this]
          omega
        | cons u us => exact ihh.2 (by simp)

/-- C3 (amended): for a document of `T` tokens and `seqlen` `S ≥ 3`, the
Chunk Builder produces exactly `(T - 1) / (S - 2) + 1` chunks — that is,
`⌈T / (S - 2)⌉` chunks when `T > 0` and exactly `1` chunk when `T = 0`
(each non-final chunk carries `S - 2` content tokens). -/
theorem chunkBuilder_count (S : ℕ) (toks : List Tok) (hS : 3 ≤ S) :
    (chunkBuilder S toks).length = (toks.length - 1) / (S - 2) + 1 := by
  have hb := buildLoop_count S hS toks (Tok.bos :: []) (by simp)
  have hshape := buildLoop_shape S hS toks (Tok.bos :: []) (by simp)
    (by simp; omega) (by simp)
  rw [chunkBuilder_eq]
  cases toks with
  | nil => simp [buildLoop_nil]
  | cons t ts =>
    rcases hr : buildLoop S (Tok.bos :: []) (t :: ts) with ⟨cs, fin⟩
    rw [hr] at hb hshape
    have h2 : 2 ≤ fin.length := hb.2 (by simp)
    have hle : fin.length ≤ S - 1 := hshape.2.2.1
    have hid := hb.1
    have hm : 0 < S - 2 := by omega
    simp only [List.length_append, List.length_cons, List.length_nil]
      at hid ⊢
    have key : ts.length + 1 - 1 = (fin.length - 2) + (S - 2) * cs.length := by
      generalize (S - 2) * cs.length = A at hid ⊢
      omega
    have hlt : fin.length - 2 < S - 2 := by omega
    rw [key, Nat.add_mul_div_left _ _ hm, Nat.div_eq_of_lt hlt]
    omega

/-- The content tokens of a chunk: everything that is not a begin, end or
pad marker, in order. -/
def content (ch : List Tok) : List Tok :=
  ch.filter (fun t => ! t.isSpecial)

/-- Content invariant of the token loop: the content of the emitted chunks
followed by the content of the running chunk is exactly the content of the
starting chunk followed by all consumed tokens (no token dropped,
duplicated or reordered), provided the document's tokens are not marker
tokens. -/
theorem buildLoop_content (S : ℕ) :
    ∀ (toks cur : List Tok), (∀ t ∈ toks, t.isSpecial = false) →
      ((buildLoop S cur toks).1.map content).flatten
          ++ content (buildLoop S cur toks).2
        = content cur ++ toks := by
  intro toks
  induction toks with
  | nil =>
    intro cur _
    simp [buildLoop_nil]
  | cons t ts ih =>
    intro cur hns
    have ht : t.isSpecial = false := hns t (by simp)
    have hts : ∀ u ∈ ts, u.isSpecial = false := fun u hu => hns u (by simp [hu])
    have hsing : content [t] = [t] := by
      cases t <;> simp_all [content, Tok.isSpecial]
    by_cases hfull : cur.length = S - 1
    · have ihh := ih (Tok.bos :: [t]) hts
      rw [buildLoop_cons_full S cur t ts hfull]
      rcases hr : buildLoop S (Tok.bos :: [t]) ts with ⟨cs, fin⟩
      rw [hr] at ihh
      have hbt : content (Tok.bos :: [t]) = [t] := by
        show content ([Tok.bos] ++ [t]) = [t]
        rw [content, List.filter_append, ← content, ← content, hsing]
        rfl
      have hce : content (cur ++ [Tok.eos]) = content cur := by
        rw [content, List.filter_append, ← content]
        simp [Tok.isSpecial]
      simp only [List.map_cons, List.flatten_cons, hce, List.append_assoc]
      rw [ihh, hbt]
      simp
    · have ihh := ih (cur ++ [t]) hts
      rw [buildLoop_cons_notfull S cur t ts hfull]
      have hct : content (cur ++ [t]) = content cur ++ [t] := by
        rw [content, List.filter_append, ← content, ← content, hsing]
      rw [ihh, hct]
      simp

/-- The finalization step does not change a chunk's content: the pad
filler and the end-marker overwrite only touch marker tokens, as long as
the running chunk has at most `S - 1` elements. -/
theorem finalize_content (S : ℕ) (cur : List Tok)
    (h2 : cur.length ≤ S - 1) :
    content (finalize S cur) = content cur := by
  rw [finalize, List.set_append_right _ _ (by omega)]
  rw [content, List.filter_append]
  have hnil :
      ((List.replicate (S - cur.length) Tok.pad).set
          (S - 1 - cur.length) Tok.eos).filter (fun t => ! t.isSpecial)
        = [] := by
    rw [List.filter_eq_nil_iff]
    intro a ha
    rcases List.mem_or_eq_of_mem_set ha with ha | rfl
    · rw [List.eq_of_mem_replicate ha]
      simp [Tok.isSpecial]
    · simp [Tok.isSpecial]
  rw [hnil]
  simp [content]

/-- C4: for every document whose tokens are plain content tokens and every
`seqlen` `S ≥ 3`, removing the begin, end and pad markers from each chunk
and concatenating the chunks in emission order yields exactly the original
token sequence. -/
theorem chunkBuilder_coverage (S : ℕ) (toks : List Tok) (hS : 3 ≤ S)
    (hns : ∀ t ∈ toks, t.isSpecial = false) :
    ((chunkBuilder S toks).map content).flatten = toks := by
  have hshape := buildLoop_shape S hS toks (Tok.bos :: []) (by simp)
    (by simp; omega) (by simp)
  have hcont := buildLoop_content S toks (Tok.bos :: []) hns
  rw [chunkBuilder_eq]
  rcases hr : buildLoop S (Tok.bos :: []) toks with ⟨cs, fin⟩
  rw [hr] at hshape hcont
  simp only [List.map_append, List.map_cons, List.map_nil,
    List.flatten_append, List.flatten_cons, List.flatten_nil]
  rw [finalize_content S fin hshape.2.2.1]
  have hbos : content (Tok.bos :: []) = [] := by simp [content, Tok.isSpecial]
  rw [hbos] at hcont
  simpa using hcont

/-- Witness for C4 at `S = 3`, document `[word 0, word 1]` (two chunks). -/
theorem chunkBuilder_coverage_witness :
    3 ≤ 3 ∧ (∀ t ∈ [Tok.word 0, Tok.word 1], t.isSpecial = false) ∧
    ((chunkBuilder 3 [Tok.word 0, Tok.word 1]).map content).flatten
      = [Tok.word 0, Tok.word 1] :=
  ⟨by decide, by decide,
    chunkBuilder_coverage 3 [Tok.word 0, Tok.word 1] (by decide) (by decide)⟩

/-- Unfolding of `tokenizedTextToMmap`. -/
theorem tokenizedTextToMmap_eq (S : ℕ) (idOf : Tok → ℕ)
    (shuffle : List (List Tok) → List (List Tok))
    (chunksList : List (List Tok)) :
    tokenizedTextToMmap S idOf shuffle chunksList
      = if (shuffle chunksList).all (fun c => (c.map idOf).length = S) then
          some (((shuffle chunksList).map
            (fun c => (c.map idOf).map (fun v => v % 65536))).flatten)
        else
          none := rfl

/-- Slicing a row-major flattening of fixed-width rows recovers row `i`. -/
theorem flatten_slice (S : ℕ) :
    ∀ (rows : List (List ℕ)), (∀ r ∈ rows, r.length = S) →
      ∀ i (hi : i < rows.length),
        (rows.flatten.drop (i * S)).take S = rows.get ⟨i, hi⟩ := by
  intro rows
  induction rows with
  | nil =>
    intro _ i hi
    exact absurd hi (by simp)
  | cons r rs ih =>
    intro hlen i hi
    have hr : r.length = S := hlen r (by simp)
    cases i with
    | zero =>
      simp only [Nat.zero_mul, List.drop_zero, List.flatten_cons]
      rw [List.take_left' hr]
      rfl
    | succ i =>
      have : (i + 1) * S = S + i * S := by ring
      rw [List.flatten_cons, this, ← List.drop_drop, List.drop_left' hr]
      have := ih (fun x hx => hlen x (by simp [hx])) i (by simpa using hi)
      rw [this]
      rfl

/-- C5: round-trip through the binary cache.  If the serialization step
accepts a bucket (writing flat contents `data`), every chunk's ids fit in
uint16 (`< 65535`), and `i` indexes a chunk, then `__getitem__ i` on the
written file returns exactly chunk `i` of the shuffled bucket's ids,
unchanged in value and order, only widened from `ℕ` (uint16 storage) to
`ℤ` (signed tensor values). -/
theorem getItem_roundtrip (S : ℕ) (idOf : Tok → ℕ)
    (shuffle : List (List Tok) → List (List Tok)) (chunks : List (List Tok))
    (data : List ℕ) (i : ℕ)
    (hwrite : tokenizedTextToMmap S idOf shuffle chunks = some data)
    (hids : ∀ ch ∈ shuffle chunks, ∀ t ∈ ch, idOf t < 65535)
    (hi : i < (shuffle chunks).length) :
    getItem data S i
      = ((shuffle chunks).get ⟨i, hi⟩).map (fun t => ((idOf t : ℕ) : ℤ)) := by
  rw [tokenizedTextToMmap_eq] at hwrite
  split at hwrite
  case isTrue hall =>
    have hdata := Option.some.inj hwrite
    have hall' : ∀ ch ∈ shuffle chunks, (ch.map idOf).length = S := by
      intro ch hch
      exact of_decide_eq_true (List.all_eq_true.mp hall ch hch)
    have hmod : ∀ ch ∈ shuffle chunks,
        (ch.map idOf).map (fun v => v % 65536) = ch.map idOf := by
      intro ch hch
      rw [List.map_map]
      exact List.map_congr_left (fun t ht =>
        Nat.mod_eq_of_lt (by have := hids ch hch t ht; omega))
    have hrows : ∀ r ∈ (shuffle chunks).map
        (fun c => (c.map idOf).map (fun v => v % 65536)), r.length = S := by
      intro r hr
      rcases List.mem_map.mp hr with ⟨ch, hch, rfl⟩
      simpa using hall' ch hch
    have hi' : i < ((shuffle chunks).map
        (fun c => (c.map idOf).map (fun v => v % 65536))).length := by
      simpa using hi
    rw [getItem, ← hdata, flatten_slice S _ hrows i hi']
    have hget : ((shuffle chunks).map
        (fun c => (c.map idOf).map (fun v => v % 65536))).get ⟨i, hi'⟩
          = ((shuffle chunks).get ⟨i, hi⟩).map idOf := by
      rw [List.get_eq_getElem, List.getElem_map]
      exact hmod _ (List.getElem_mem _)
    rw [hget, List.map_map]
    rfl
  case isFalse hall =>
    exact absurd hwrite (by simp)

/-- Witness for C5: two chunks at `S = 3`, identity-like id map,
identity shuffle, reading row 1. -/
theorem getItem_roundtrip_witness :
    tokenizedTextToMmap 3
        (fun t => match t with | .bos => 0 | .eos => 2 | .pad => 1 | .word n => 5 + n)
        id [[Tok.bos, Tok.word 0, Tok.eos], [Tok.bos, Tok.word 1, Tok.eos]]
      = some [0, 5, 2, 0, 6, 2] ∧
    getItem [0, 5, 2, 0, 6, 2] 3 1 = [0, 6, 2] := by
  constructor
  · rfl
  · have := getItem_roundtrip 3
      (fun t => match t with | .bos => 0 | .eos => 2 | .pad => 1 | .word n => 5 + n)
      id [[Tok.bos, Tok.word 0, Tok.eos], [Tok.bos, Tok.word 1, Tok.eos]]
      [0, 5, 2, 0, 6, 2] 1 (by rfl) (by decide) (by decide)
    simpa using this

/-- C6: the Mapped Dataset's length is the file's element count divided by
`seqlen` with integer division: a file holding `n` complete records plus a
trailing partial record (fewer than `seqlen` elements) reports exactly `n`
instances — the partial record is silently dropped, and no error is
raised (the function is total). -/
theorem numInstances_drops_partial (S : ℕ) (rows : List (List ℕ))
    (t : List ℕ) (hS : 0 < S) (hrows : ∀ r ∈ rows, r.length = S)
    (ht : t.length < S) :
    numInstances (rows.flatten ++ t) S = rows.length := by
  have hflat : rows.flatten.length = rows.length * S := by
    rw [List.length_flatten]
    rw [List.map_congr_left hrows]
    simp [List.map_const', Nat.mul_comm]
  rw [numInstances, List.length_append, hflat]
  rw [Nat.mul_comm, Nat.mul_add_div hS]
  simp [Nat.div_eq_of_lt ht]

/-- Witness for C6: one complete row of width 2 plus a 1-element partial
record; the dataset length is 1. -/
theorem numInstances_drops_partial_witness :
    numInstances ([[3, 4]].flatten ++ [7]) 2 = 1 :=
  numInstances_drops_partial 2 [[3, 4]] [7] (by decide) (by decide) (by decide)

/-- Counterexample to C3 as stated: at `S = 8` a document of `T = 6`
tokens yields one chunk (`[bos] ++ 6 tokens ++ [eos]` exactly fills one
chunk), but the claimed formula `⌈(T + 2) / (S - 1)⌉ = ⌈8 / 7⌉` predicts
two chunks. -/
theorem chunkBuilder_count_counterexample :
    ¬ ((chunkBuilder 8 [Tok.word 0, Tok.word 1, Tok.word 2, Tok.word 3,
          Tok.word 4, Tok.word 5]).length
        = (6 + 2 + (8 - 1) - 1) / (8 - 1)) := by
  decide

/-- Witness for the amended C3 at `S = 8`, `T = 6`: the code emits
`(6 - 1) / (8 - 2) + 1 = 1` chunk. -/
theorem chunkBuilder_count_witness :
    3 ≤ 8 ∧ (chunkBuilder 8 [Tok.word 0, Tok.word 1, Tok.word 2, Tok.word 3,
        Tok.word 4, Tok.word 5]).length = (6 - 1) / (8 - 2) + 1 :=
  ⟨by decide, chunkBuilder_count 8 [Tok.word 0, Tok.word 1, Tok.word 2,
      Tok.word 3, Tok.word 4, Tok.word 5] (by decide)⟩

/-- C7: if the `cache/` directory already exists when `raw_text_to_mmap`
is called (and the tokenizer passes the vocabulary assert that runs
first), the operation returns normally with outcome `skipped`: no cache
file is written and no chunk processing occurs. -/
theorem rawTextToMmap_cache_noop (vocabSize : ℕ) (ratio : ℚ) (S : ℕ)
    (draws : ℕ → ℚ) (idOf : Tok → ℕ)
    (shuffleT shuffleV : List (List Tok) → List (List Tok))
    (lines : List Line) (hv : vocabSize < 65535) :
    rawTextToMmap vocabSize true ratio S draws idOf shuffleT shuffleV lines
      = Except.ok IngestOutcome.skipped := by
  rw [rawTextToMmap, if_pos hv, if_pos rfl]

/-- Witness for C7 at concrete arguments. -/
theorem rawTextToMmap_cache_noop_witness :
    100 < 65535 ∧
    rawTextToMmap 100 true 0 8 (fun _ => 1) (fun _ => 0) id id
        [⟨false, [Tok.word 0]⟩]
      = Except.ok IngestOutcome.skipped :=
  ⟨by decide,
    rawTextToMmap_cache_noop 100 0 8 (fun _ => 1) (fun _ => 0) id id
      [⟨false, [Tok.word 0]⟩] (by decide)⟩

/-- C8: if the tokenizer's vocabulary size is `≥ 65535`, ingestion fails
with the vocabulary assertion, before the cache existence check and before
any bucket is built or serialized — whatever the cache state, the input, or
the randomness. -/
theorem rawTextToMmap_vocab_assert (vocabSize : ℕ) (cacheExists : Bool)
    (ratio : ℚ) (S : ℕ) (draws : ℕ → ℚ) (idOf : Tok → ℕ)
    (shuffleT shuffleV : List (List Tok) → List (List Tok))
    (lines : List Line) (hv : 65535 ≤ vocabSize) :
    rawTextToMmap vocabSize cacheExists ratio S draws idOf shuffleT shuffleV
        lines
      = Except.error "assert len(tokenizer) < 65535" := by
  rw [rawTextToMmap, if_neg (by omega)]

/-- Witness for C8 at concrete arguments (cache present, so the assert
fires even though the cache short-circuit would otherwise apply). -/
theorem rawTextToMmap_vocab_assert_witness :
    65535 ≤ 70000 ∧
    rawTextToMmap 70000 true 0 8 (fun _ => 1) (fun _ => 0) id id
        [⟨false, [Tok.word 0]⟩]
      = Except.error "assert len(tokenizer) < 65535" :=
  ⟨by decide,
    rawTextToMmap_vocab_assert 70000 true 0 8 (fun _ => 1) (fun _ => 0) id id
      [⟨false, [Tok.word 0]⟩] (by decide)⟩

/-- Unfolding of `ingestFrom` on no more lines. -/
theorem ingestFrom_nil (ratio : ℚ) (S : ℕ) (draws : ℕ → ℚ) (n : ℕ) :
    ingestFrom ratio S draws [] n = ([], []) := rfl

/-- Unfolding of `ingestFrom` on an empty line: dropped, no draw. -/
theorem ingestFrom_cons_empty (ratio : ℚ) (S : ℕ) (draws : ℕ → ℚ)
    (l : Line) (ls : List Line) (n : ℕ) (h : l.isEmpty = true) :
    ingestFrom ratio S draws (l :: ls) n = ingestFrom ratio S draws ls n := by
  rw [ingestFrom, if_pos h]

/-- Unfolding of `ingestFrom` on a non-empty line whose draw exceeds the
split ratio: every chunk of the line goes to the train bucket. -/
theorem ingestFrom_cons_train (ratio : ℚ) (S : ℕ) (draws : ℕ → ℚ)
    (l : Line) (ls : List Line) (n : ℕ) (h : l.isEmpty = false)
    (hd : draws n > ratio) :
    ingestFrom ratio S draws (l :: ls) n
      = (chunkBuilder S l.tokens ++ (ingestFrom ratio S draws ls (n + 1)).1,
         (ingestFrom ratio S draws ls (n + 1)).2) := by
  rw [ingestFrom, if_neg (by simp [h]), if_pos hd]

/-- Unfolding of `ingestFrom` on a non-empty line whose draw does not
exceed the split ratio: every chunk of the line goes to the validation
bucket. -/
theorem ingestFrom_cons_val (ratio : ℚ) (S : ℕ) (draws : ℕ → ℚ)
    (l : Line) (ls : List Line) (n : ℕ) (h : l.isEmpty = false)
    (hd : ¬ draws n > ratio) :
    ingestFrom ratio S draws (l :: ls) n
      = ((ingestFrom ratio S draws ls (n + 1)).1,
         chunkBuilder S l.tokens ++ (ingestFrom ratio S draws ls (n + 1)).2) := by
  rw [ingestFrom, if_neg (by simp [h]), if_neg hd]

/-- Number of `random.random()` draws the line loop consumes on a list of
lines: one per non-empty line. -/
def drawCount (lines : List Line) : ℕ :=
  (lines.filter (fun l => ! l.isEmpty)).length

/-- The line loop is compositional: processing `pre ++ post` appends, per
bucket, the chunks of `pre` (draws `n, n+1, …`) and those of `post`
(draws starting at `n + drawCount pre`). -/
theorem ingestFrom_append (ratio : ℚ) (S : ℕ) (draws : ℕ → ℚ) :
    ∀ (pre post : List Line) (n : ℕ),
      ingestFrom ratio S draws (pre ++ post) n
        = ((ingestFrom ratio S draws pre n).1
            ++ (ingestFrom ratio S draws post (n + drawCount pre)).1,
           (ingestFrom ratio S draws pre n).2
            ++ (ingestFrom ratio S draws post (n + drawCount pre)).2) := by
  intro pre
  induction pre with
  | nil =>
    intro post n
    simp [ingestFrom_nil, drawCount]
  | cons l pre ih =>
    intro post n
    by_cases he : l.isEmpty = true
    · have hdc : drawCount (l :: pre) = drawCount pre := by
        simp [drawCount, List.filter_cons, he]
      rw [List.cons_append, ingestFrom_cons_empty ratio S draws l _ n he,
        ingestFrom_cons_empty ratio S draws l pre n he, hdc, ih]
    · have he' : l.isEmpty = false := by simpa using he
      have hdc : drawCount (l :: pre) = drawCount pre + 1 := by
        simp [drawCount, List.filter_cons, he']
      have harith : n + 1 + drawCount pre = n + (drawCount pre + 1) := by omega
      by_cases hd : draws n > ratio
      · rw [List.cons_append, ingestFrom_cons_train ratio S draws l _ n he' hd,
          ingestFrom_cons_train ratio S draws l pre n he' hd, ih, hdc, harith]
        simp [List.append_assoc]
      · rw [List.cons_append, ingestFrom_cons_val ratio S draws l _ n he' hd,
          ingestFrom_cons_val ratio S draws l pre n he' hd, ih, hdc, harith]
        simp [List.append_assoc]

/-- C2 (amended): the train/validation assignment is decided by one
independent random draw per non-empty line (document), not per chunk.  For
a document `l` preceded by lines `pre`, the single draw at index
`n + drawCount pre` is compared against the split ratio and sends the
document's entire chunk list to the train bucket when the draw exceeds the
ratio, and to the validation bucket otherwise. -/
theorem ingest_assignment_per_line (ratio : ℚ) (S : ℕ) (draws : ℕ → ℚ)
    (pre : List Line) (l : Line) (ls : List Line) (n : ℕ)
    (h : l.isEmpty = false) :
    ingestFrom ratio S draws (pre ++ l :: ls) n
      = (if draws (n + drawCount pre) > ratio then
           ((ingestFrom ratio S draws pre n).1
             ++ (chunkBuilder S l.tokens
                  ++ (ingestFrom ratio S draws ls (n + drawCount pre + 1)).1),
            (ingestFrom ratio S draws pre n).2
             ++ (ingestFrom ratio S draws ls (n + drawCount pre + 1)).2)
         else
           ((ingestFrom ratio S draws pre n).1
             ++ (ingestFrom ratio S draws ls (n + drawCount pre + 1)).1,
            (ingestFrom ratio S draws pre n).2
             ++ (chunkBuilder S l.tokens
                  ++ (ingestFrom ratio S draws ls (n + drawCount pre + 1)).2))) := by
  rw [ingestFrom_append ratio S draws pre (l :: ls) n]
  by_cases hd : draws (n + drawCount pre) > ratio
  · rw [ingestFrom_cons_train ratio S draws l ls (n + drawCount pre) h hd,
      if_pos hd]
  · rw [ingestFrom_cons_val ratio S draws l ls (n + drawCount pre) h hd,
      if_neg hd]

/-- Witness for the amended C2: one document of two tokens at `S = 3`
(two chunks), no preceding lines, constant draw `3/4` against ratio `1/2`:
both chunks land in the train bucket. -/
theorem ingest_assignment_per_line_witness :
    (Line.mk false [Tok.word 0, Tok.word 1]).isEmpty = false ∧
    ingestFrom (1/2) 3 (fun _ => (3 : ℚ)/4)
        ([] ++ Line.mk false [Tok.word 0, Tok.word 1] :: []) 0
      = (if (fun _ => (3 : ℚ)/4) (0 + drawCount []) > 1/2 then
           ((ingestFrom (1/2) 3 (fun _ => (3 : ℚ)/4) [] 0).1
             ++ (chunkBuilder 3 (Line.mk false [Tok.word 0, Tok.word 1]).tokens
                  ++ (ingestFrom (1/2) 3 (fun _ => (3 : ℚ)/4) []
                        (0 + drawCount [] + 1)).1),
            (ingestFrom (1/2) 3 (fun _ => (3 : ℚ)/4) [] 0).2
             ++ (ingestFrom (1/2) 3 (fun _ => (3 : ℚ)/4) []
                  (0 + drawCount [] + 1)).2)
         else
           ((ingestFrom (1/2) 3 (fun _ => (3 : ℚ)/4) [] 0).1
             ++ (ingestFrom (1/2) 3 (fun _ => (3 : ℚ)/4) []
                  (0 + drawCount [] + 1)).1,
            (ingestFrom (1/2) 3 (fun _ => (3 : ℚ)/4) [] 0).2
             ++ (chunkBuilder 3 (Line.mk false [Tok.word 0, Tok.word 1]).tokens
                  ++ (ingestFrom (1/2) 3 (fun _ => (3 : ℚ)/4) []
                        (0 + drawCount [] + 1)).2))) :=
  ⟨rfl, ingest_assignment_per_line (1/2) 3 (fun _ => (3 : ℚ)/4) []
      (Line.mk false [Tok.word 0, Tok.word 1]) [] 0 rfl⟩

/-- Formalization of C2's wording (not of the code): assign each chunk of
a document to a bucket with one fresh `random.random()` draw per chunk,
`draw > ratio` sending that single chunk to train and `draw ≤ ratio`
sending it to validation, threading the draw counter across chunks. -/
def assignChunksPerDraw (ratio : ℚ) (draws : ℕ → ℚ) :
    List (List Tok) → ℕ → (List (List Tok) × List (List Tok)) × ℕ
  | [], n => (([], []), n)
  | ch :: cs, n =>
    if draws n > ratio then
      (((ch :: (assignChunksPerDraw ratio draws cs (n + 1)).1.1),
        (assignChunksPerDraw ratio draws cs (n + 1)).1.2),
       (assignChunksPerDraw ratio draws cs (n + 1)).2)
    else
      (((assignChunksPerDraw ratio draws cs (n + 1)).1.1,
        (ch :: (assignChunksPerDraw ratio draws cs (n + 1)).1.2)),
       (assignChunksPerDraw ratio draws cs (n + 1)).2)

/-- Formalization of C2's wording (not of the code): the line loop with
the claimed per-chunk assignment in place of the code's per-line
assignment. -/
def ingestPerChunkSpec (ratio : ℚ) (S : ℕ) (draws : ℕ → ℚ) :
    List Line → ℕ → List (List Tok) × List (List Tok)
  | [], _ => ([], [])
  | l :: ls, n =>
    if l.isEmpty then
      ingestPerChunkSpec ratio S draws ls n
    else
      ((assignChunksPerDraw ratio draws (chunkBuilder S l.tokens) n).1.1
        ++ (ingestPerChunkSpec ratio S draws ls
             (assignChunksPerDraw ratio draws (chunkBuilder S l.tokens) n).2).1,
       (assignChunksPerDraw ratio draws (chunkBuilder S l.tokens) n).1.2
        ++ (ingestPerChunkSpec ratio S draws ls
             (assignChunksPerDraw ratio draws (chunkBuilder S l.tokens) n).2).2)

/-- Counterexample to C2 as stated: a single document of two tokens at
`S = 3` produces two chunks; with draws `1, 0, 0, …` against ratio `0`,
the code consumes only the first draw and sends both chunks to train,
while the claimed per-chunk rule would send the first chunk to train
(draw `1 > 0`) and the second to validation (draw `0 ≤ 0`). -/
theorem ingest_per_chunk_counterexample :
    ingestFrom 0 3 (fun n => if n = 0 then (1 : ℚ) else 0)
        [Line.mk false [Tok.word 0, Tok.word 1]] 0
      = ([[Tok.bos, Tok.word 0, Tok.eos], [Tok.bos, Tok.word 1, Tok.eos]],
         []) ∧
    ingestPerChunkSpec 0 3 (fun n => if n = 0 then (1 : ℚ) else 0)
        [Line.mk false [Tok.word 0, Tok.word 1]] 0
      = ([[Tok.bos, Tok.word 0, Tok.eos]], [[Tok.bos, Tok.word 1, Tok.eos]]) ∧
    ([[Tok.bos, Tok.word 0, Tok.eos], [Tok.bos, Tok.word 1, Tok.eos]],
        ([] : List (List Tok)))
      ≠ (([[Tok.bos, Tok.word 0, Tok.eos]] : List (List Tok)),
         [[Tok.bos, Tok.word 1, Tok.eos]]) := by
  refine ⟨by decide, by decide, by decide⟩

/-- Extending a list on the left preserves infixhood. -/
theorem isInfix_append_left {α : Type} (s : List α) {xs t : List α}
    (h : xs <:+: t) : xs <:+: s ++ t := by
  rcases h with ⟨p, q, hp⟩
  exact ⟨s ++ p, q, by rw [← hp]; simp⟩

/-- C10: during ingestion, all chunks produced from one non-empty line
land contiguously in a single bucket — a document's chunk list appears as
an infix of the train bucket or of the validation bucket, never split
across the two (the random draw is made once per line, before chunking). -/
theorem ingest_no_document_split (ratio : ℚ) (S : ℕ) (draws : ℕ → ℚ) :
    ∀ (lines : List Line) (n : ℕ) (l : Line), l ∈ lines →
      l.isEmpty = false →
      chunkBuilder S l.tokens <:+: (ingestFrom ratio S draws lines n).1 ∨
      chunkBuilder S l.tokens <:+: (ingestFrom ratio S draws lines n).2 := by
  intro lines
  induction lines with
  | nil =>
    intro n l hl
    exact absurd hl (by simp)
  | cons l' ls ih =>
    intro n l hl hne
    rcases List.mem_cons.mp hl with rfl | hl
    · by_cases hd : draws n > ratio
      · rw [ingestFrom_cons_train ratio S draws l ls n hne hd]
        exact Or.inl ⟨[], (ingestFrom ratio S draws ls (n + 1)).1, by simp⟩
      · rw [ingestFrom_cons_val ratio S draws l ls n hne hd]
        exact Or.inr ⟨[], (ingestFrom ratio S draws ls (n + 1)).2, by simp⟩
    · by_cases he : l'.isEmpty = true
      · rw [ingestFrom_cons_empty ratio S draws l' ls n he]
        exact ih n l hl hne
      · have he' : l'.isEmpty = false := by simpa using he
        by_cases hd : draws n > ratio
        · rw [ingestFrom_cons_train ratio S draws l' ls n he' hd]
          rcases ih (n + 1) l hl hne with hi | hi
          · exact Or.inl (isInfix_append_left _ hi)
          · exact Or.inr hi
        · rw [ingestFrom_cons_val ratio S draws l' ls n he' hd]
          rcases ih (n + 1) l hl hne with hi | hi
          · exact Or.inl hi
          · exact Or.inr (isInfix_append_left _ hi)

/-- Witness for C10: two non-empty lines; the second line's two chunks
appear together in one bucket. -/
theorem ingest_no_document_split_witness :
    Line.mk false [Tok.word 2, Tok.word 3]
        ∈ [Line.mk false [Tok.word 0], Line.mk false [Tok.word 2, Tok.word 3]] ∧
    (Line.mk false [Tok.word 2, Tok.word 3]).isEmpty = false ∧
    (chunkBuilder 3 (Line.mk false [Tok.word 2, Tok.word 3]).tokens
        <:+: (ingestFrom 0 3 (fun _ => 1)
          [Line.mk false [Tok.word 0], Line.mk false [Tok.word 2, Tok.word 3]]
          0).1 ∨
     chunkBuilder 3 (Line.mk false [Tok.word 2, Tok.word 3]).tokens
        <:+: (ingestFrom 0 3 (fun _ => 1)
          [Line.mk false [Tok.word 0], Line.mk false [Tok.word 2, Tok.word 3]]
          0).2) :=
  ⟨by decide, by decide,
    ingest_no_document_split 0 3 (fun _ => 1)
      [Line.mk false [Tok.word 0], Line.mk false [Tok.word 2, Tok.word 3]]
      0 (Line.mk false [Tok.word 2, Tok.word 3]) (by decide) (by decide)⟩

/-- Unfolding of `rawTextToMmap` when the vocabulary fits and no cache
directory exists: both buckets are built and serialized. -/
theorem rawTextToMmap_run (vocabSize : ℕ) (ratio : ℚ) (S : ℕ)
    (draws : ℕ → ℚ) (idOf : Tok → ℕ)
    (shuffleT shuffleV : List (List Tok) → List (List Tok))
    (lines : List Line) (hv : vocabSize < 65535) :
    rawTextToMmap vocabSize false ratio S draws idOf shuffleT shuffleV lines
      = match
          tokenizedTextToMmap S idOf shuffleT
            (ingestFrom ratio S draws lines 0).1,
          tokenizedTextToMmap S idOf shuffleV
            (ingestFrom ratio S draws lines 0).2 with
        | some t, some v => Except.ok (IngestOutcome.written t v)
        | _, _ => Except.error "assert len(token_ids) == args.seqlen" := by
  rw [rawTextToMmap, if_pos hv, if_neg (by simp)]

/-- C9 (amended): for an input directory with one file containing the two
lines `"hello world"` and `""` (the first tokenizing to two content
tokens), with `seqlen = 8` and `split_ratio = 0.0` and the draw positive,
ingestion writes `train.bin` containing exactly one chunk of 8 uint16
values `[BOS, id(hello), id(world), PAD, PAD, PAD, PAD, EOS]` — the end
marker is written at the last position, after the padding, not directly
after the content — and `val.bin` containing 0 chunks (the empty line is
dropped). -/
theorem rawTextToMmap_hello_world (vocabSize : ℕ) (draws : ℕ → ℚ)
    (idOf : Tok → ℕ) (shuffleT shuffleV : List (List Tok) → List (List Tok))
    (hv : vocabSize < 65535) (hd : draws 0 > 0)
    (hT : List.Perm
            (shuffleT [[Tok.bos, Tok.word 0, Tok.word 1, Tok.pad, Tok.pad,
              Tok.pad, Tok.pad, Tok.eos]])
            [[Tok.bos, Tok.word 0, Tok.word 1, Tok.pad, Tok.pad,
              Tok.pad, Tok.pad, Tok.eos]])
    (hV : List.Perm (shuffleV []) []) (hid : ∀ t, idOf t < 65535) :
    rawTextToMmap vocabSize false 0 8 draws idOf shuffleT shuffleV
        [Line.mk false [Tok.word 0, Tok.word 1], Line.mk true []]
      = Except.ok (IngestOutcome.written
          [idOf Tok.bos, idOf (Tok.word 0), idOf (Tok.word 1), idOf Tok.pad,
           idOf Tok.pad, idOf Tok.pad, idOf Tok.pad, idOf Tok.eos]
          []) := by
  have hchunk : chunkBuilder 8 [Tok.word 0, Tok.word 1]
      = [[Tok.bos, Tok.word 0, Tok.word 1, Tok.pad, Tok.pad, Tok.pad,
          Tok.pad, Tok.eos]] := by decide
  have hbuckets : ingestFrom 0 8 draws
      [Line.mk false [Tok.word 0, Tok.word 1], Line.mk true []] 0
      = ([[Tok.bos, Tok.word 0, Tok.word 1, Tok.pad, Tok.pad, Tok.pad,
           Tok.pad, Tok.eos]], []) := by
    rw [ingestFrom_cons_train 0 8 draws _ _ 0 rfl hd,
      ingestFrom_cons_empty 0 8 draws _ _ 1 rfl, ingestFrom_nil, hchunk]
    simp
  have hsT : shuffleT [[Tok.bos, Tok.word 0, Tok.word 1, Tok.pad, Tok.pad,
      Tok.pad, Tok.pad, Tok.eos]]
      = [[Tok.bos, Tok.word 0, Tok.word 1, Tok.pad, Tok.pad, Tok.pad,
          Tok.pad, Tok.eos]] := List.perm_singleton.mp hT
  have hsV : shuffleV [] = [] := List.perm_nil.mp hV
  have hmod : ∀ t, idOf t % 65536 = idOf t := fun t =>
    Nat.mod_eq_of_lt (by have := hid t; omega)
  have htrain : tokenizedTextToMmap 8 idOf shuffleT
      [[Tok.bos, Tok.word 0, Tok.word 1, Tok.pad, Tok.pad, Tok.pad,
        Tok.pad, Tok.eos]]
      = some [idOf Tok.bos, idOf (Tok.word 0), idOf (Tok.word 1),
          idOf Tok.pad, idOf Tok.pad, idOf Tok.pad, idOf Tok.pad,
          idOf Tok.eos] := by
    rw [tokenizedTextToMmap_eq, hsT]
    simp [hmod]
  have hval : tokenizedTextToMmap 8 idOf shuffleV ([] : List (List Tok))
      = some [] := by
    rw [tokenizedTextToMmap_eq, hsV]
    simp
  rw [rawTextToMmap_run vocabSize 0 8 draws idOf shuffleT shuffleV _ hv,
    hbuckets, htrain, hval]

/-- Witness for the amended C9: concrete vocabulary size, constant draw
`1`, identity shuffles, and the id map `bos ↦ 0, pad ↦ 1, eos ↦ 2,
word n ↦ 5 + n`. -/
theorem rawTextToMmap_hello_world_witness :
    rawTextToMmap 100 false 0 8 (fun _ => 1)
        (fun t => match t with | .bos => 0 | .pad => 1 | .eos => 2
                               | .word n => 5 + n % 1000)
        id id [Line.mk false [Tok.word 0, Tok.word 1], Line.mk true []]
      = Except.ok (IngestOutcome.written [0, 5, 6, 1, 1, 1, 1, 2] []) := by
  have h := rawTextToMmap_hello_world 100 (fun _ => 1)
    (fun t => match t with | .bos => 0 | .pad => 1 | .eos => 2
                           | .word n => 5 + n % 1000)
    id id (by decide) (by norm_num) (List.Perm.refl _) (List.Perm.refl _)
    (fun t => by
      cases t with
      | bos => decide
      | eos => decide
      | pad => decide
      | word n => show 5 + n % 1000 < 65535; omega)
  exact h

/-- Counterexample to C9 as stated: at the claim's own scenario the code
writes the end marker at the last position of the chunk
(`[0, 5, 6, 1, 1, 1, 1, 2]` with `bos ↦ 0, pad ↦ 1, eos ↦ 2, hello ↦ 5,
world ↦ 6`), not directly after the content as the claim's expected value
`[BOS, hello, world, EOS, PAD, PAD, PAD, PAD] = [0, 5, 6, 2, 1, 1, 1, 1]`
demands. -/
theorem rawTextToMmap_hello_world_counterexample :
    rawTextToMmap 100 false 0 8 (fun _ => 1)
        (fun t => match t with | .bos => 0 | .pad => 1 | .eos => 2
                               | .word n => 5 + n)
        id id [Line.mk false [Tok.word 0, Tok.word 1], Line.mk true []]
      ≠ Except.ok (IngestOutcome.written [0, 5, 6, 2, 1, 1, 1, 1] []) := by
  intro h
  rw [show rawTextToMmap 100 false 0 8 (fun _ => 1)
      (fun t => match t with | .bos => 0 | .pad => 1 | .eos => 2
                             | .word n => 5 + n)
      id id [Line.mk false [Tok.word 0, Tok.word 1], Line.mk true []]
      = Except.ok (IngestOutcome.written [0, 5, 6, 1, 1, 1, 1, 2] [])
    from rfl] at h
  simp at h
